import Mathlib

/-!
Verification of the round-robin fantasy-football scheduler (`Scheduler.py`).

The Python program is embedded shallowly:

* a `Team` object is identified by a natural number (its index in the input
  name list); within one attempt the program never aliases two objects, so
  object identity and index coincide;
* the two mutable fields of a `Team` (`schedule`, the ordered history of
  opponents, and `already_played_set`, the set of opponents faced in the
  current cycle) become the two fields of `St`;
* all randomness (`random.shuffle`, `random.choice`) is made explicit as an
  oracle: each matchup consumes one oracle entry consisting of a proposed
  shuffled ordering of the unscheduled list and an index for `random.choice`.
  An entry that is not a permutation of the current list falls back to the
  identity ordering, so every oracle value denotes a genuine execution and
  every execution is denoted by some oracle value;
* the `IndexError` raised by `random.choice` on an empty candidate list (the
  dead-end signal caught in `runScheduler`) becomes `Option.none`;
* Python's `ceil(weeks / num_unique_matchups)` on exact small integers is the
  natural-number ceiling division `(weeks + nuq - 1) / nuq`.
-/

namespace Scheduler

/-- Identity of a team: its index in the list of entered names. -/
abbrev TeamId := Nat

/-- One oracle entry per matchup: the result of `random.shuffle` on the
unscheduled list, and the index drawn by `random.choice`. -/
abbrev OraEntry := List TeamId × Nat

/-- The random stream consumed by one attempt. -/
abbrev Ora := List OraEntry

/-- A week record: the ordered list of committed matchup pairs of one week. -/
abbrev WeekRec := List (TeamId × TeamId)

/-- A schedule: the ordered list of committed weeks. -/
abbrev Sched := List WeekRec

/-- The mutable state of all `Team` objects: `hist` is `Team.schedule` (the
ordered opponent history), `played` is `Team.already_played_set`. -/
structure St where
  hist : TeamId → List TeamId
  played : TeamId → Finset TeamId

/-- Embedding of `testMatch(match, unscheduled_teams)` (Scheduler.py lines
132-145): removing `m` from `unscheduled` must not leave the remaining
unscheduled teams forming a subset of any remaining team's
`already_played_set` with that team itself added.  The Python function only
reads state, so it is a pure `Bool`-valued function here. -/
def testMatch (st : St) (m : TeamId) (unscheduled : Finset TeamId) : Bool :=
  decide (∀ t ∈ unscheduled.erase m, ¬ (unscheduled.erase m ⊆ insert t (st.played t)))

/-- Embedding of `setIsUnique(a_set, teams)` (lines 147-153): true iff no
team in `teams` has an `already_played_set` equal to `aset`. -/
def setIsUnique (st : St) (aset : Finset TeamId) (teams : List TeamId) : Bool :=
  teams.all (fun t => decide (st.played t ≠ aset))

/-- Pointwise update appending `v` to the history of `x`. -/
def addHist (h : TeamId → List TeamId) (x v : TeamId) : TeamId → List TeamId :=
  fun y => if y = x then h x ++ [v] else h y

/-- Pointwise update inserting `v` into the played set of `x`. -/
def addPlayed (p : TeamId → Finset TeamId) (x v : TeamId) : TeamId → Finset TeamId :=
  fun y => if y = x then insert v (p x) else p y

/-- Embedding of `setMatchForTeam(team1, team2)` (lines 156-161): append each
name to the other's `schedule` and add each team to the other's
`already_played_set`. -/
def setMatchForTeam (st : St) (t1 t2 : TeamId) : St :=
  { hist := addHist (addHist st.hist t1 t2) t2 t1
    played := addPlayed (addPlayed st.played t1 t2) t2 t1 }

/-- The quantity `already_played_or_self_size = w+1` of line 316: before
week `w` (zero-based within the current cycle) each team has played `w`
opponents this cycle, plus itself. -/
def already_played_or_self_size (w : Nat) : Nat := w + 1

/-- The guard of line 338: the viability filter runs exactly when
`len(unscheduled_teams) - 1 <= already_played_or_self_size`.  (`restLen` is
the length of the unscheduled list after the picker has been popped.) -/
def viabilityCheckUsed (restLen w : Nat) : Bool :=
  decide (restLen - 1 ≤ already_played_or_self_size w)

/-- The first candidate list of line 328: unscheduled teams (picker already
removed) that the picker `p` has not yet played. -/
def potentialMatches (st : St) (p : TeamId) (U1 : List TeamId) : List TeamId :=
  U1.filter (fun a => decide (a ∉ st.played p))

/-- The surviving candidate list used for selection (lines 328-343): the
`testMatch` refinement of `potentialMatches` when the guard of line 338
holds, the unrefined list otherwise. -/
def survivors (st : St) (p : TeamId) (U1 : List TeamId) (w : Nat) : List TeamId :=
  if viabilityCheckUsed U1.length w then
    (potentialMatches st p U1).filter (fun a => testMatch st a U1.toFinset)
  else potentialMatches st p U1

/-- Result of `random.shuffle(U)` as dictated by the oracle entry `osh`:
`osh` itself when it is a rearrangement of `U`, otherwise `U` unchanged
(the identity shuffle, itself a possible outcome). -/
def shuffleOf (U osh : List TeamId) : List TeamId :=
  if (osh : Multiset TeamId) = (U : Multiset TeamId) then osh else U

/-- Embedding of `random.choice(l)`: some element selected by the oracle
index, or `none` (the `IndexError` dead end) when `l` is empty. -/
def chooseFrom (l : List TeamId) (k : Nat) : Option TeamId :=
  l[k % l.length]?

/-- The preference test of lines 356-359 exactly as coded: both hypothetical
sets `set1 = played p ∪ {c}` and `set2 = played c ∪ {p}` must be `setIsUnique`
against the list `sch` (which at the call site contains the current picker in
addition to the teams already paired this week). -/
def isPreferredCode (st : St) (p : TeamId) (sch : List TeamId) (c : TeamId) : Bool :=
  setIsUnique st (insert c (st.played p)) sch && setIsUnique st (insert p (st.played c)) sch

/-- Outcome of one committed matchup. -/
structure StepOut where
  st : St
  unscheduled : List TeamId
  scheduled : List TeamId
  pair : TeamId × TeamId

/-- Lines 378-381: remove the chosen match from the unscheduled list, append
it to the scheduled list, and record the pairing in both team states. -/
def commitMatch (st : St) (U1 sch1 : List TeamId) (p m : TeamId) : StepOut :=
  { st := setMatchForTeam st p m
    unscheduled := U1.erase m
    scheduled := sch1 ++ [m]
    pair := (p, m) }

/-- One iteration of the matchup loop (lines 321-381): shuffle, pop the
picker, either take the single remaining team (line 331 shortcut) or select
from the surviving candidates — randomly for the first matchup of the week,
otherwise the first preferred candidate with a random fallback.  `none` is
the `IndexError` dead end of `random.choice` on an empty list. -/
def scheduleMatchup (st : St) (U sch : List TeamId) (i w : Nat)
    (osh : List TeamId) (oc : Nat) : Option StepOut :=
  let Ush := shuffleOf U osh
  match Ush.getLast? with
  | none => none
  | some p =>
    let U1 := Ush.dropLast
    let sch1 := sch ++ [p]
    match U1 with
    | [m] => some (commitMatch st U1 sch1 p m)
    | _ =>
      let ms := survivors st p U1 w
      if i = 0 then
        match chooseFrom ms oc with
        | none => none
        | some m => some (commitMatch st U1 sch1 p m)
      else
        match ms.find? (fun c => isPreferredCode st p sch1 c) with
        | some m => some (commitMatch st U1 sch1 p m)
        | none =>
          match chooseFrom ms oc with
          | none => none
          | some m => some (commitMatch st U1 sch1 p m)

/-- Type of a single-matchup step function (state, unscheduled list,
scheduled list, matchup index, week index, oracle shuffle, oracle choice). -/
abbrev StepFun :=
  St → List TeamId → List TeamId → Nat → Nat → List TeamId → Nat → Option StepOut

/-- The matchup loop of one week (lines 321-381), generic in the step
function so that instrumented variants share the same loop structure.
Recursion is on the number of remaining matchups `iter_per_week - i`. -/
def runWeekGoW (f : StepFun) (w : Nat) :
    Nat → Nat → St → List TeamId → List TeamId → WeekRec → Ora →
    Option (St × WeekRec × Ora)
  | 0, _i, st, _U, _sch, pairs, o => some (st, pairs, o)
  | fuel+1, i, st, U, sch, pairs, o =>
    match f st U sch i w (o.headD ([], 0)).1 (o.headD ([], 0)).2 with
    | none => none
    | some r =>
      runWeekGoW f w fuel (i+1) r.st r.unscheduled r.scheduled (pairs ++ [r.pair]) o.tail

/-- One week of `runScheduler` (lines 310-384): a fresh copy of the team
list becomes the unscheduled pool and `iter_per_week = len(teams) / 2`
matchups are built. -/
def runWeekW (f : StepFun) (st : St) (teams : List TeamId) (w : Nat) (o : Ora) :
    Option (St × WeekRec × Ora) :=
  runWeekGoW f w (teams.length / 2) 0 st teams [] [] o

/-- The week loop of `runScheduler` (lines 302-393), generic in the step
function; recursion is on the number of remaining weeks. -/
def runSchedulerGoW (f : StepFun) (teams : List TeamId) :
    Nat → Nat → St → Sched → Ora → Option (St × Sched × Ora)
  | 0, _w, st, acc, o => some (st, acc, o)
  | rem+1, w, st, acc, o =>
    match runWeekW f st teams w o with
    | none => none
    | some r => runSchedulerGoW f teams rem (w+1) r.1 (acc ++ [r.2.1]) r.2.2

/-- Embedding of `runScheduler(teams, weeks, weekly_schedule)`: build `weeks`
consecutive weeks, returning the final team state and the list of committed
week records, or `none` on a dead end. -/
def runScheduler (st : St) (teams : List TeamId) (weeks : Nat) (o : Ora) :
    Option (St × Sched × Ora) :=
  runSchedulerGoW scheduleMatchup teams weeks 0 st [] o

/-- Line 271: `team.already_played_set = set()` for every team; histories
are left intact. -/
def resetPlayed (st : St) : St :=
  { hist := st.hist, played := fun _ => ∅ }

/-- The state of freshly constructed `Team` objects (line 258 / line 288). -/
def freshSt : St :=
  { hist := fun _ => [], played := fun _ => ∅ }

/-- Line 262: `num_passes = ceil(weeks / num_unique_matchups)` as exact
natural-number ceiling division. -/
def numPasses (weeks nuq : Nat) : Nat := (weeks + nuq - 1) / nuq

/-- The pass loop of `main` (lines 269-283), by recursion on the number of
remaining passes: each pass clears every `already_played_set` and runs the
scheduler for a full pass of `nuq` weeks, except the final pass which runs
`weeks % nuq` weeks when that is nonzero.  Any dead end aborts the attempt. -/
def attemptGo (teams : List TeamId) (weeks nuq : Nat) :
    Nat → St → Sched → Ora → Option (St × Sched × Ora)
  | 0, st, acc, o => some (st, acc, o)
  | rem+1, st, acc, o =>
    let len := if 0 < rem then nuq else if weeks % nuq = 0 then nuq else weeks % nuq
    match runScheduler (resetPlayed st) teams len o with
    | none => none
    | some r => attemptGo teams weeks nuq rem r.1 (acc ++ r.2.1) r.2.2

/-- One complete attempt of `main` for `n` teams: fresh `Team` objects, an
empty `WeeklySchedule`, and `numPasses` passes of the scheduler. -/
def attempt (n weeks : Nat) (o : Ora) : Option (St × Sched × Ora) :=
  attemptGo (List.range n) weeks (n - 1) (numPasses weeks (n - 1)) freshSt [] o

/-- The retry loop of `main` (lines 266-290): each failed attempt discards
all team state and the in-progress schedule, increments the retry counter,
and restarts with fresh state; the first successful attempt is returned
together with the retry count.  Each attempt owns its own slice of the
random stream. -/
def mainLoopGo (n weeks : Nat) : List Ora → Nat → Option ((St × Sched) × Nat)
  | [], _r => none
  | o :: os, r =>
    match attempt n weeks o with
    | some res => some ((res.1, res.2.1), r)
    | none => mainLoopGo n weeks os (r+1)

/-- Embedding of a full `main(names, weeks, ...)` run: the schedule and the
retry count of the first successful attempt. -/
def mainLoop (n weeks : Nat) (os : List Ora) : Option ((St × Sched) × Nat) :=
  mainLoopGo n weeks os 0

/-! Definitions below this point are verification vocabulary: the
specification-side predicates the claims compare the code against, two
instrumented variants of the matchup step, and the invariants of the
cycle-construction proofs.  None of them is used by the embedding above. -/

/-- Preference of a candidate `c` for picker `p` in the words of the
specification (section 4.2): neither hypothetical opponent set may equal
the current `opponentsPlayed` of a participant already paired this week
(`pairedSoFar` excludes the picker). -/
def isPreferredSpec (st : St) (p : TeamId) (pairedSoFar : List TeamId) (c : TeamId) : Bool :=
  pairedSoFar.all fun t =>
    decide (st.played t ≠ insert c (st.played p) ∧ st.played t ≠ insert p (st.played c))

/-- Candidate list of the matchup step when the viability filter is applied
unconditionally, ignoring the guard of line 338. -/
def survivorsAC (st : St) (p : TeamId) (U1 : List TeamId) : List TeamId :=
  (potentialMatches st p U1).filter (fun a => testMatch st a U1.toFinset)

/-- Variant of `scheduleMatchup` that applies the viability filter on every
matchup, with no size guard (verification harness for the claim that the
guard skips the filter only where it would remove nothing). -/
def scheduleMatchupAC (st : St) (U sch : List TeamId) (i _w : Nat)
    (osh : List TeamId) (oc : Nat) : Option StepOut :=
  let Ush := shuffleOf U osh
  match Ush.getLast? with
  | none => none
  | some p =>
    let U1 := Ush.dropLast
    let sch1 := sch ++ [p]
    match U1 with
    | [m] => some (commitMatch st U1 sch1 p m)
    | _ =>
      let ms := survivorsAC st p U1
      if i = 0 then
        match chooseFrom ms oc with
        | none => none
        | some m => some (commitMatch st U1 sch1 p m)
      else
        match ms.find? (fun c => isPreferredCode st p sch1 c) with
        | some m => some (commitMatch st U1 sch1 p m)
        | none =>
          match chooseFrom ms oc with
          | none => none
          | some m => some (commitMatch st U1 sch1 p m)

/-- Variant of `scheduleMatchup` whose shortcut branch (line 331) refuses a
forced pairing that would repeat a matchup of the current cycle
(verification harness for the claim that the shortcut never commits a
repeat). -/
def scheduleMatchupChecked (st : St) (U sch : List TeamId) (i w : Nat)
    (osh : List TeamId) (oc : Nat) : Option StepOut :=
  let Ush := shuffleOf U osh
  match Ush.getLast? with
  | none => none
  | some p =>
    let U1 := Ush.dropLast
    let sch1 := sch ++ [p]
    match U1 with
    | [m] => if m ∈ st.played p then none else some (commitMatch st U1 sch1 p m)
    | _ =>
      let ms := survivors st p U1 w
      if i = 0 then
        match chooseFrom ms oc with
        | none => none
        | some m => some (commitMatch st U1 sch1 p m)
      else
        match ms.find? (fun c => isPreferredCode st p sch1 c) with
        | some m => some (commitMatch st U1 sch1 p m)
        | none =>
          match chooseFrom ms oc with
          | none => none
          | some m => some (commitMatch st U1 sch1 p m)

/-- The run of `runScheduler` with the unconditional viability filter. -/
def runSchedulerAC (st : St) (teams : List TeamId) (weeks : Nat) (o : Ora) :
    Option (St × Sched × Ora) :=
  runSchedulerGoW scheduleMatchupAC teams weeks 0 st [] o

/-- The run of `runScheduler` with the guarded shortcut branch. -/
def runSchedulerChecked (st : St) (teams : List TeamId) (weeks : Nat) (o : Ora) :
    Option (St × Sched × Ora) :=
  runSchedulerGoW scheduleMatchupChecked teams weeks 0 st [] o

/-- The week lengths of the passes of one attempt, in order. -/
def passLens (weeks nuq : Nat) : List Nat :=
  List.replicate (numPasses weeks nuq - 1) nuq ++
    [if weeks % nuq = 0 then nuq else weeks % nuq]

/-- Specification-side restatement of the pass loop: fold the scheduler over
an explicit list of per-pass week counts, clearing every played set before
each pass. -/
def passesFold (teams : List TeamId) : List Nat → St → Sched → Ora → Option (St × Sched × Ora)
  | [], st, acc, o => some (st, acc, o)
  | l :: ls, st, acc, o =>
    match runScheduler (resetPlayed st) teams l o with
    | none => none
    | some r => passesFold teams ls r.1 (acc ++ r.2.1) r.2.2

/-- Symmetry of the played sets: `a` has faced `b` iff `b` has faced `a`. -/
def Sym (st : St) : Prop := ∀ a b, a ∈ st.played b ↔ b ∈ st.played a

/-- No team ever occurs in its own played set. -/
def NoSelf (st : St) : Prop := ∀ a, a ∉ st.played a

/-- Two ordered pairs denote the same unordered matchup. -/
def pairEq (x y : TeamId × TeamId) : Prop :=
  (x.1 = y.1 ∧ x.2 = y.2) ∨ (x.1 = y.2 ∧ x.2 = y.1)

/-- No unordered matchup occurs twice in the list. -/
def dupFree (ps : List (TeamId × TeamId)) : Prop :=
  ps.Pairwise (fun x y => ¬ pairEq x y)

/-- The played sets record exactly the matchups committed since the start of
the cycle. -/
def Corr (st : St) (ps : List (TeamId × TeamId)) : Prop :=
  ∀ a b, b ∈ st.played a ↔ ∃ x ∈ ps, pairEq x (a, b)

/-- When exactly two teams remain unscheduled they have not faced each other
this cycle. -/
def TwoLeftOK (st : St) (U : List TeamId) : Prop :=
  U.length = 2 → ∀ a ∈ U, ∀ b ∈ U, a ≠ b → b ∉ st.played a

/-- The inductive invariant of the matchup loop within one week: `ps` is the
list of all matchups committed since the start of the cycle, `U` the
unscheduled pool, `w` the number of weeks completed this cycle. -/
structure WInv (st : St) (U : List TeamId) (ps : List (TeamId × TeamId)) (w : Nat) : Prop where
  sym : Sym st
  noself : NoSelf st
  corr : Corr st ps
  dup : dupFree ps
  nodupU : U.Nodup
  cardw : ∀ t ∈ U, (st.played t).card = w
  two : TwoLeftOK st U

/-- The invariant between weeks of one cycle. -/
structure CycInv (st : St) (teams : List TeamId) (ps : List (TeamId × TeamId)) (w : Nat) : Prop where
  sym : Sym st
  noself : NoSelf st
  corr : Corr st ps
  dup : dupFree ps
  cardw : ∀ t ∈ teams, (st.played t).card = w

/-- All teams mentioned by a list of matchup pairs, with multiplicity. -/
def teamsOf : List (TeamId × TeamId) → Multiset TeamId
  | [] => 0
  | x :: xs => x.1 ::ₘ x.2 ::ₘ teamsOf xs

/-- Everything one committed week `δ` changes about the state: the pairs
cover the week-start pool `U` exactly, teams outside `U` are untouched, and
each committed pair is fresh and updates exactly its two members. -/
structure WeekDelta (st stF : St) (U : List TeamId) (δ : List (TeamId × TeamId)) : Prop where
  cover : teamsOf δ = (U : Multiset TeamId)
  frame : ∀ t, t ∉ U → stF.played t = st.played t ∧ stF.hist t = st.hist t
  pairs : ∀ x ∈ δ, x.1 ≠ x.2 ∧ x.1 ∈ U ∧ x.2 ∈ U ∧
    x.2 ∉ st.played x.1 ∧ x.1 ∉ st.played x.2 ∧
    stF.played x.1 = insert x.2 (st.played x.1) ∧
    stF.played x.2 = insert x.1 (st.played x.2) ∧
    stF.hist x.1 = st.hist x.1 ++ [x.2] ∧
    stF.hist x.2 = st.hist x.2 ++ [x.1]

/-- Histories are aligned and symmetric: every team of `teams` has `L`
entries, and entry `k` of `a` being `b` forces entry `k` of `b` to be `a`. -/
def HistSym (st : St) (teams : List TeamId) (L : Nat) : Prop :=
  (∀ t ∈ teams, (st.hist t).length = L) ∧
  (∀ a ∈ teams, ∀ (k : Nat) (b : TeamId),
    (st.hist a)[k]? = some b → b ∈ teams ∧ (st.hist b)[k]? = some a)

/-! From here on: theorems.  General facts about the building blocks first,
then the inductive invariant lemmas, then one theorem (plus witness or
counterexample) per claim. -/

theorem shuffleOf_perm (U osh : List TeamId) : (shuffleOf U osh).Perm U := by
  unfold shuffleOf
  by_cases h : (osh : Multiset TeamId) = (U : Multiset TeamId)
  · rw [if_pos h]
    exact Multiset.coe_eq_coe.mp h
  · rw [if_neg h]

theorem chooseFrom_mem {l : List TeamId} {k : Nat} {m : TeamId}
    (h : chooseFrom l k = some m) : m ∈ l := by
  unfold chooseFrom at h
  exact List.getElem?_mem h

theorem chooseFrom_eq_none {l : List TeamId} {k : Nat} : chooseFrom l k = none ↔ l = [] := by
  unfold chooseFrom
  constructor
  · intro h
    by_contra hne
    have hlt : k % l.length < l.length := Nat.mod_lt _ (List.length_pos.mpr hne)
    rw [List.getElem?_eq_getElem hlt] at h
    exact Option.noConfusion h
  · intro h
    subst h
    rfl

/-- C2: the Match Viability Checker `testMatch`, on any unscheduled pool `U`
containing the picking team and the candidate `c`, reports a rejection
(returns `false`) exactly when some remaining participant `t` of
`R = U \ \x7bc\x7d` satisfies `R ⊆ t.opponentsPlayed ∪ \x7bt\x7d`.  The
embedding of `testMatch` is a pure function returning `Bool`: the Python
body only reads participant state (it copies the set before mutating the
copy), which the shallow embedding reflects by giving it no state output. -/
theorem C2_viability_contract (st : St) (U : Finset TeamId) (picker c : TeamId)
    (_hpicker : picker ∈ U) (_hc : c ∈ U) :
    (testMatch st c U = false ↔ ∃ t ∈ U.erase c, U.erase c ⊆ insert t (st.played t)) := by
  unfold testMatch
  rw [decide_eq_false_iff_not]
  push_neg
  rfl

theorem C2_viability_contract_witness :
    (testMatch ⟨fun _ => [], fun t => if t = 0 then {1} else ∅⟩ 2 {0, 1, 2} = false ↔
      ∃ t ∈ ({0, 1, 2} : Finset TeamId).erase 2,
        ({0, 1, 2} : Finset TeamId).erase 2 ⊆
          insert t ((St.mk (fun _ => []) (fun t => if t = 0 then {1} else ∅)).played t)) :=
  C2_viability_contract ⟨fun _ => [], fun t => if t = 0 then {1} else ∅⟩ {0, 1, 2} 0 2
    (by decide) (by decide)

/-- C3 counterexample: the claim says the viability check runs exactly when
the remaining pool size minus one does not exceed the number of weeks
already completed in the cycle.  At pool size `3` after the picker is
removed and `w = 1` completed weeks (four teams, first matchup of the
second week of a cycle — a reachable configuration, see line 338), the code
guard `3 - 1 <= w + 1` holds and the filter runs although `3 - 1 > 1`. -/
theorem C3_threshold_counterexample :
    ¬ (viabilityCheckUsed 3 1 = true ↔ (3 : Nat) - 1 ≤ 1) := by decide

/-- C3 amended: the Match Viability Checker is invoked on the candidates
exactly when the size of the remaining unscheduled pool minus one does not
exceed the number of weeks already completed in the current cycle plus one
— the size of the picker's already-played-or-self set, which is the
quantity `already_played_or_self_size` the code actually compares against
(line 316/338). -/
theorem C3_threshold_amended (st : St) (p : TeamId) (U1 : List TeamId) (w : Nat)
    (hcard : (st.played p).card = w) (hself : p ∉ st.played p) :
    survivors st p U1 w =
      if U1.length - 1 ≤ (insert p (st.played p)).card then
        (potentialMatches st p U1).filter (fun a => testMatch st a U1.toFinset)
      else potentialMatches st p U1 := by
  have h : (insert p (st.played p)).card = w + 1 := by
    rw [Finset.card_insert_of_not_mem hself, hcard]
  rw [h]
  unfold survivors viabilityCheckUsed already_played_or_self_size
  by_cases hg : U1.length - 1 ≤ w + 1
  · rw [if_pos (by simpa using hg), if_pos hg]
  · rw [if_neg (by simpa using hg), if_neg hg]

theorem C3_threshold_amended_witness :
    survivors ⟨fun _ => [], fun _ => ∅⟩ 0 [1, 2, 3] 0 =
      if [1, 2, 3].length - 1 ≤ (insert 0 ((St.mk (fun _ => []) (fun _ => ∅)).played 0)).card then
        (potentialMatches ⟨fun _ => [], fun _ => ∅⟩ 0 [1, 2, 3]).filter
          (fun a => testMatch ⟨fun _ => [], fun _ => ∅⟩ a ([1, 2, 3] : List TeamId).toFinset)
      else potentialMatches ⟨fun _ => [], fun _ => ∅⟩ 0 [1, 2, 3] :=
  C3_threshold_amended ⟨fun _ => [], fun _ => ∅⟩ 0 [1, 2, 3] 0 (by decide) (by decide)

/-- C9: the shallow embedding makes every random draw an explicit input (the
oracle stream standing for the values drawn from the seeded generator), and
the whole pipeline is a pure function of the inputs and that stream: two
runs with the same stream — hence with the same fixed seed of the
underlying seedable generator — and the same inputs return the identical
schedule and the identical retry count.  The default behavior of the
program (line 255, `random.seed()` with no argument) corresponds to a fresh
stream per run. -/
theorem C9_reproducible (n weeks : Nat) (os1 os2 : List Ora) (h : os1 = os2) :
    mainLoop n weeks os1 = mainLoop n weeks os2 := by rw [h]

theorem C9_reproducible_witness : mainLoop 4 3 [[]] = mainLoop 4 3 [[]] :=
  C9_reproducible 4 3 [[]] [[]] rfl

theorem survivors_subset_potential {st : St} {p : TeamId} {U1 : List TeamId} {w : Nat} :
    ∀ c ∈ survivors st p U1 w, c ∈ potentialMatches st p U1 := by
  intro c hc
  unfold survivors at hc
  split at hc
  · exact List.mem_of_mem_filter hc
  · exact hc

theorem potential_not_played {st : St} {p : TeamId} {U1 : List TeamId} :
    ∀ c ∈ potentialMatches st p U1, c ∉ st.played p := by
  intro c hc
  unfold potentialMatches at hc
  simpa using List.of_mem_filter hc

theorem potential_mem {st : St} {p : TeamId} {U1 : List TeamId} :
    ∀ c ∈ potentialMatches st p U1, c ∈ U1 := by
  intro c hc
  exact List.mem_of_mem_filter hc

theorem find?_congr {α : Type} {f g : α → Bool} :
    ∀ {l : List α}, (∀ x ∈ l, f x = g x) → l.find? f = l.find? g := by
  intro l
  induction l with
  | nil => intro _; rfl
  | cons a l ih =>
    intro h
    simp only [List.find?_cons]
    rw [h a (List.mem_cons_self a l)]
    cases hg : g a
    · exact ih fun x hx => h x (List.mem_cons_of_mem a hx)
    · rfl

theorem list_all_and {α : Type} (l : List α) (f g : α → Bool) :
    (l.all fun x => f x && g x) = (l.all f && l.all g) := by
  induction l with
  | nil => rfl
  | cons a l ih =>
    cases hf : f a <;> cases hg : g a <;> simp [List.all_cons, hf, hg, ih]

theorem isPreferredCode_eq_spec (st : St) (p c : TeamId) (sch : List TeamId)
    (hcp : c ∉ st.played p) (hself : p ∉ st.played p) :
    isPreferredCode st p (sch ++ [p]) c = isPreferredSpec st p sch c := by
  have h1 : st.played p ≠ insert c (st.played p) := by
    intro he
    exact hcp (he ▸ Finset.mem_insert_self c (st.played p))
  have h2 : st.played p ≠ insert p (st.played c) := by
    intro he
    exact hself (he ▸ Finset.mem_insert_self p (st.played c))
  have e1 : decide (st.played p = insert c (st.played p)) = false := decide_eq_false h1
  have e2 : decide (st.played p = insert p (st.played c)) = false := decide_eq_false h2
  unfold isPreferredCode isPreferredSpec setIsUnique
  simp only [List.all_append, List.all_cons, List.all_nil, Bool.and_true, decide_not,
    Bool.decide_and, e1, e2, Bool.not_false, Bool.true_and]
  exact (list_all_and sch _ _).symm

/-- C5: for every matchup after the first of a week, the committed candidate
is selected as the claim states it: the first candidate (in the candidate
list's iteration order) whose two hypothetical opponent sets both differ
from the current opponent set of every participant already paired this
week, with a fallback to the oracle-selected (uniformly random) choice
among all surviving candidates when no candidate is preferred.  The code
additionally compares against the picker itself (`scheduled_teams` already
holds the picker), which never rejects a candidate because the picker does
not occur in its own played set. -/
theorem C5_preference_selection (st : St) (U sch : List TeamId) (i w oc : Nat)
    (osh : List TeamId) (p : TeamId)
    (hpop : (shuffleOf U osh).getLast? = some p)
    (hone : (shuffleOf U osh).dropLast.length ≠ 1)
    (hi : i ≠ 0) (hself : p ∉ st.played p) :
    scheduleMatchup st U sch i w osh oc =
      (match (survivors st p ((shuffleOf U osh).dropLast) w).find?
          (isPreferredSpec st p sch) with
       | some m => some (commitMatch st ((shuffleOf U osh).dropLast) (sch ++ [p]) p m)
       | none => Option.map
           (fun m => commitMatch st ((shuffleOf U osh).dropLast) (sch ++ [p]) p m)
           (chooseFrom (survivors st p ((shuffleOf U osh).dropLast) w) oc)) := by
  have hfind : ∀ U1 : List TeamId,
      (survivors st p U1 w).find? (fun c => isPreferredCode st p (sch ++ [p]) c) =
      (survivors st p U1 w).find? (isPreferredSpec st p sch) := by
    intro U1
    exact find?_congr fun c hc =>
      isPreferredCode_eq_spec st p c sch
        (potential_not_played c (survivors_subset_potential c hc)) hself
  obtain ⟨U1, hS⟩ : ∃ U1, shuffleOf U osh = U1 ++ [p] :=
    ⟨(shuffleOf U osh).dropLast, (List.dropLast_append_getLast? p hpop).symm⟩
  rw [hS] at hone
  simp only [List.dropLast_concat] at hone
  simp only [scheduleMatchup, hS, List.getLast?_concat, List.dropLast_concat]
  rcases U1 with _ | ⟨a, rest⟩
  · dsimp only
    rw [if_neg hi, hfind []]
    cases hf : (survivors st p [] w).find? (isPreferredSpec st p sch)
    · simp only [hf]
      cases hc : chooseFrom (survivors st p [] w) oc <;>
        simp only [chooseFrom] at hc <;> simp [hc]
    · simp [hf]
  · rcases rest with _ | ⟨b, l⟩
    · exact absurd rfl hone
    · dsimp only
      rw [if_neg hi, hfind (a :: b :: l)]
      cases hf : (survivors st p (a :: b :: l) w).find? (isPreferredSpec st p sch)
      · simp only [hf]
        cases hc : chooseFrom (survivors st p (a :: b :: l) w) oc <;>
          simp only [chooseFrom] at hc <;> simp [hc]
      · simp [hf]

theorem C5_preference_selection_witness :
    scheduleMatchup freshSt [1, 2, 3, 0] [9] 1 0 [] 0 =
      (match (survivors freshSt 0 ((shuffleOf [1, 2, 3, 0] []).dropLast) 0).find?
          (isPreferredSpec freshSt 0 [9]) with
       | some m => some (commitMatch freshSt ((shuffleOf [1, 2, 3, 0] []).dropLast) ([9] ++ [0]) 0 m)
       | none => Option.map
           (fun m => commitMatch freshSt ((shuffleOf [1, 2, 3, 0] []).dropLast) ([9] ++ [0]) 0 m)
           (chooseFrom (survivors freshSt 0 ((shuffleOf [1, 2, 3, 0] []).dropLast) 0) 0)) :=
  C5_preference_selection freshSt [1, 2, 3, 0] [9] 1 0 0 [] 0 (by decide) (by decide)
    (by decide) (by decide)

theorem attemptGo_eq_passesFold (teams : List TeamId) (weeks nuq : Nat) :
    ∀ rem st acc o, 0 < rem →
      attemptGo teams weeks nuq rem st acc o =
        passesFold teams
          (List.replicate (rem - 1) nuq ++ [if weeks % nuq = 0 then nuq else weeks % nuq])
          st acc o := by
  intro rem
  induction rem with
  | zero => intro st acc o h; exact absurd h (by omega)
  | succ r ih =>
    intro st acc o _
    by_cases hr : 0 < r
    · obtain ⟨r2, rfl⟩ : ∃ r2, r = r2 + 1 := ⟨r - 1, by omega⟩
      simp only [attemptGo, if_pos hr, Nat.succ_sub_one, List.replicate_succ,
        List.cons_append, passesFold, runScheduler]
      cases hrun : runSchedulerGoW scheduleMatchup teams nuq 0 (resetPlayed st) [] o with
      | none => rfl
      | some res => exact ih res.1 (acc ++ res.2.1) res.2.2 hr
    · have hr0 : r = 0 := by omega
      subst hr0
      simp only [attemptGo, if_neg hr, Nat.sub_self, List.replicate, List.nil_append,
        passesFold, runScheduler]

theorem numPasses_pos (weeks nuq : Nat) (hw : 1 ≤ weeks) (hq : 1 ≤ nuq) :
    0 < numPasses weeks nuq := by
  unfold numPasses
  have : nuq ≤ weeks + nuq - 1 := by omega
  exact Nat.div_pos this hq

theorem numPasses_ceil (weeks nuq : Nat) (hw : 1 ≤ weeks) (hq : 1 ≤ nuq) :
    weeks ≤ numPasses weeks nuq * nuq ∧ numPasses weeks nuq * nuq < weeks + nuq := by
  unfold numPasses
  have hdm := Nat.div_add_mod (weeks + nuq - 1) nuq
  have hmlt : (weeks + nuq - 1) % nuq < nuq := Nat.mod_lt _ hq
  rw [Nat.mul_comm]
  generalize (weeks + nuq - 1) / nuq = q at *
  generalize hP : nuq * q = P at *
  omega

/-- C6: one attempt drives `numPasses = ceil(weeks / (n-1))` cycles (the two
inequalities characterize `numPasses` as the exact ceiling), each cycle
clears every played set while leaving every history intact before running
the scheduler, every cycle but the last is `n-1` weeks long, and the final
cycle is `n-1` weeks long when `weeks` is an exact multiple of `n-1` and
`weeks % (n-1)` weeks long otherwise. -/
theorem C6_pass_structure (n weeks : Nat) (o : Ora) (hw : 1 ≤ weeks) (hn : 2 ≤ n) :
    attempt n weeks o = passesFold (List.range n) (passLens weeks (n - 1)) freshSt [] o ∧
    (passLens weeks (n - 1)).length = numPasses weeks (n - 1) ∧
    (∀ l ∈ (passLens weeks (n - 1)).dropLast, l = n - 1) ∧
    (passLens weeks (n - 1)).getLast? =
      some (if weeks % (n - 1) = 0 then n - 1 else weeks % (n - 1)) ∧
    weeks ≤ numPasses weeks (n - 1) * (n - 1) ∧
    numPasses weeks (n - 1) * (n - 1) < weeks + (n - 1) ∧
    (∀ st t, (resetPlayed st).played t = ∅ ∧ (resetPlayed st).hist t = st.hist t) := by
  have hq : 1 ≤ n - 1 := by omega
  have hpos := numPasses_pos weeks (n - 1) hw hq
  have hceil := numPasses_ceil weeks (n - 1) hw hq
  refine ⟨?_, ?_, ?_, ?_, hceil.1, hceil.2, fun st t => ⟨rfl, rfl⟩⟩
  · unfold attempt passLens
    exact attemptGo_eq_passesFold (List.range n) weeks (n - 1) (numPasses weeks (n - 1))
      freshSt [] o hpos
  · unfold passLens
    simp only [List.length_append, List.length_replicate, List.length_singleton]
    omega
  · unfold passLens
    intro l hl
    rw [List.dropLast_concat] at hl
    exact List.eq_of_mem_replicate hl
  · unfold passLens
    exact List.getLast?_concat _

theorem C6_pass_structure_witness :
    attempt 4 7 [] = passesFold (List.range 4) (passLens 7 3) freshSt [] [] ∧
    (passLens 7 3).length = numPasses 7 3 ∧
    (∀ l ∈ (passLens 7 3).dropLast, l = 3) ∧
    (passLens 7 3).getLast? = some (if 7 % 3 = 0 then 3 else 7 % 3) ∧
    7 ≤ numPasses 7 3 * 3 ∧
    numPasses 7 3 * 3 < 7 + 3 ∧
    (∀ st t, (resetPlayed st).played t = ∅ ∧ (resetPlayed st).hist t = st.hist t) :=
  C6_pass_structure 4 7 [] (by decide) (by decide)

theorem survivors_nil (st : St) (p : TeamId) (w : Nat) : survivors st p [] w = [] := by
  unfold survivors potentialMatches
  split <;> rfl

theorem scheduleMatchup_none_iff (st : St) (U sch : List TeamId) (i w : Nat)
    (osh : List TeamId) (oc : Nat) (hU : U ≠ []) :
    (scheduleMatchup st U sch i w osh oc = none ↔
      ∃ p, (shuffleOf U osh).getLast? = some p ∧
        (shuffleOf U osh).dropLast.length ≠ 1 ∧
        survivors st p ((shuffleOf U osh).dropLast) w = []) := by
  have hSne : shuffleOf U osh ≠ [] := by
    intro h
    have hperm := shuffleOf_perm U osh
    rw [h] at hperm
    exact hU (List.perm_nil.mp hperm.symm)
  obtain ⟨p, hp⟩ : ∃ p, (shuffleOf U osh).getLast? = some p := by
    cases hS : (shuffleOf U osh).getLast? with
    | none => exact absurd (List.getLast?_eq_none_iff.mp hS) hSne
    | some p => exact ⟨p, rfl⟩
  obtain ⟨U1, hS⟩ : ∃ U1, shuffleOf U osh = U1 ++ [p] :=
    ⟨(shuffleOf U osh).dropLast, (List.dropLast_append_getLast? p hp).symm⟩
  simp only [scheduleMatchup, hS, List.getLast?_concat, List.dropLast_concat,
    Option.some.injEq, exists_eq_left']
  rcases U1 with _ | ⟨a, rest⟩
  · by_cases hi : i = 0 <;>
      simp [hi, survivors_nil, chooseFrom, List.find?]
  · rcases rest with _ | ⟨b, l⟩
    · dsimp only
      constructor
      · intro h
        exact Option.noConfusion h
      · rintro ⟨h1, _⟩
        exact absurd rfl h1
    · dsimp only
      have hlen : (a :: b :: l).length ≠ 1 := by
        simp only [List.length_cons]
        omega
      by_cases hi : i = 0
      · rw [if_pos hi]
        constructor
        · intro h
          cases hc : chooseFrom (survivors st p (a :: b :: l) w) oc with
          | some m => rw [hc] at h; exact Option.noConfusion h
          | none => exact ⟨hlen, chooseFrom_eq_none.mp hc⟩
        · rintro ⟨_, hms⟩
          simp [hms, chooseFrom]
      · rw [if_neg hi]
        constructor
        · intro h
          cases hf : (survivors st p (a :: b :: l) w).find?
              (fun c => isPreferredCode st p (sch ++ [p]) c) with
          | some m => rw [hf] at h; exact Option.noConfusion h
          | none =>
            rw [hf] at h
            cases hc : chooseFrom (survivors st p (a :: b :: l) w) oc with
            | some m => rw [hc] at h; exact Option.noConfusion h
            | none => exact ⟨hlen, chooseFrom_eq_none.mp hc⟩
        · rintro ⟨_, hms⟩
          simp [hms, chooseFrom, List.find?]

theorem mainLoopGo_spec (n weeks : Nat) :
    ∀ (os : List Ora) (r0 : Nat) (pr : (St × Sched) × Nat),
      (mainLoopGo n weeks os r0 = some pr ↔
        ∃ k, r0 + k = pr.2 ∧
          (∀ j, j < k → ∀ oj, os[j]? = some oj → attempt n weeks oj = none) ∧
          ∃ ok res, os[k]? = some ok ∧ attempt n weeks ok = some res ∧
            pr.1 = (res.1, res.2.1)) := by
  intro os
  induction os with
  | nil =>
    intro r0 pr
    constructor
    · intro h
      exact Option.noConfusion h
    · rintro ⟨k, -, -, ok, res, hok, -⟩
      rw [List.getElem?_nil] at hok
      exact Option.noConfusion hok
  | cons o os ih =>
    intro r0 pr
    simp only [mainLoopGo]
    cases hatt : attempt n weeks o with
    | some res =>
      constructor
      · intro h
        obtain rfl : ((res.1, res.2.1), r0) = pr := Option.some.inj h
        exact ⟨0, by simp, by omega, o, res, by simp, hatt, rfl⟩
      · rintro ⟨k, hk, hfail, ok, res2, hok, hsome, hpr⟩
        cases k with
        | zero =>
          rw [List.getElem?_cons_zero] at hok
          obtain rfl : o = ok := Option.some.inj hok
          rw [hatt] at hsome
          obtain rfl : res = res2 := Option.some.inj hsome
          obtain ⟨pa, pb⟩ := pr
          simp only at hpr hk
          subst hpr
          have hpb : pb = r0 := by omega
          subst hpb
          rfl
        | succ k2 =>
          have := hfail 0 (by omega) o (by rw [List.getElem?_cons_zero])
          rw [hatt] at this
          exact Option.noConfusion this
    | none =>
      rw [ih (r0 + 1) pr]
      constructor
      · rintro ⟨k, hk, hfail, ok, res, hok, hsome, hpr⟩
        refine ⟨k + 1, by omega, ?_, ok, res, by simpa using hok, hsome, hpr⟩
        intro j hj oj hoj
        cases j with
        | zero =>
          rw [List.getElem?_cons_zero] at hoj
          obtain rfl : o = oj := Option.some.inj hoj
          exact hatt
        | succ j2 =>
          rw [List.getElem?_cons_succ] at hoj
          exact hfail j2 (by omega) oj hoj
      · rintro ⟨k, hk, hfail, ok, res, hok, hsome, hpr⟩
        cases k with
        | zero =>
          rw [List.getElem?_cons_zero] at hok
          obtain rfl : o = ok := Option.some.inj hok
          rw [hatt] at hsome
          exact Option.noConfusion hsome
        | succ k2 =>
          refine ⟨k2, by omega, ?_, ok, res, by simpa using hok, hsome, hpr⟩
          intro j hj oj hoj
          exact hfail (j + 1) (by omega) oj (by simpa using hoj)

/-- C7: part one — a matchup of the Week Builder signals failure exactly
when its surviving candidate list is empty at the point of selection (the
single-remaining-team shortcut, `dropLast` length one, never fails); part
two — `main`'s retry loop returns retry count `r` exactly when the first
`r - r0` attempts fail and the next attempt succeeds, every attempt being
`attempt n weeks _`, which starts from fresh participant state and an empty
schedule (cycle 1) by construction. -/
theorem C7_failure_semantics (n weeks : Nat) :
    (∀ (st : St) (U sch : List TeamId) (i w : Nat) (osh : List TeamId) (oc : Nat), U ≠ [] →
      (scheduleMatchup st U sch i w osh oc = none ↔
        ∃ p, (shuffleOf U osh).getLast? = some p ∧
          (shuffleOf U osh).dropLast.length ≠ 1 ∧
          survivors st p ((shuffleOf U osh).dropLast) w = [])) ∧
    (∀ (os : List Ora) (r0 : Nat) (pr : (St × Sched) × Nat),
      (mainLoopGo n weeks os r0 = some pr ↔
        ∃ k, r0 + k = pr.2 ∧
          (∀ j, j < k → ∀ oj, os[j]? = some oj → attempt n weeks oj = none) ∧
          ∃ ok res, os[k]? = some ok ∧ attempt n weeks ok = some res ∧
            pr.1 = (res.1, res.2.1))) :=
  ⟨fun st U sch i w osh oc hU => scheduleMatchup_none_iff st U sch i w osh oc hU,
   mainLoopGo_spec n weeks⟩

theorem C7_failure_semantics_witness :
    (scheduleMatchup freshSt [0, 1] [] 0 1 [] 0 = none ↔
      ∃ p, (shuffleOf [0, 1] []).getLast? = some p ∧
        (shuffleOf [0, 1] []).dropLast.length ≠ 1 ∧
        survivors freshSt p ((shuffleOf [0, 1] []).dropLast) 1 = []) ∧
    (mainLoopGo 4 3 [[]] 0 = some ((freshSt, []), 5) ↔
      ∃ k, 0 + k = 5 ∧
        (∀ j, j < k → ∀ oj, ([[]] : List Ora)[j]? = some oj → attempt 4 3 oj = none) ∧
        ∃ ok res, ([[]] : List Ora)[k]? = some ok ∧ attempt 4 3 ok = some res ∧
          (freshSt, ([] : Sched)) = (res.1, res.2.1)) :=
  ⟨(C7_failure_semantics 4 3).1 freshSt [0, 1] [] 0 1 [] 0 (by decide),
   (C7_failure_semantics 4 3).2 [[]] 0 ((freshSt, []), 5)⟩

theorem setMatch_played_p (st : St) (p m : TeamId) (hpm : p ≠ m) :
    (setMatchForTeam st p m).played p = insert m (st.played p) := by
  unfold setMatchForTeam addPlayed
  simp [hpm]

theorem setMatch_played_m' (st : St) (p m : TeamId) (hpm : p ≠ m) :
    (setMatchForTeam st p m).played m = insert p (st.played m) := by
  have hmp : ¬ (m = p) := fun h => hpm h.symm
  unfold setMatchForTeam addPlayed
  simp [hmp]

theorem setMatch_played_other (st : St) (p m t : TeamId) (hp : t ≠ p) (hm : t ≠ m) :
    (setMatchForTeam st p m).played t = st.played t := by
  unfold setMatchForTeam addPlayed
  simp [hp, hm]

theorem setMatch_hist_p (st : St) (p m : TeamId) (hpm : p ≠ m) :
    (setMatchForTeam st p m).hist p = st.hist p ++ [m] := by
  unfold setMatchForTeam addHist
  simp [hpm]

theorem setMatch_hist_m (st : St) (p m : TeamId) (hpm : p ≠ m) :
    (setMatchForTeam st p m).hist m = st.hist m ++ [p] := by
  have hmp : ¬ (m = p) := fun h => hpm h.symm
  unfold setMatchForTeam addHist
  simp [hmp]

theorem setMatch_hist_other (st : St) (p m t : TeamId) (hp : t ≠ p) (hm : t ≠ m) :
    (setMatchForTeam st p m).hist t = st.hist t := by
  unfold setMatchForTeam addHist
  simp [hp, hm]

theorem setMatch_mem_played (st : St) (p m : TeamId) (hpm : p ≠ m) (a b : TeamId) :
    (a ∈ (setMatchForTeam st p m).played b ↔
      (a ∈ st.played b ∨ (b = p ∧ a = m) ∨ (b = m ∧ a = p))) := by
  by_cases hbm : b = m
  · subst hbm
    rw [setMatch_played_m' st p b hpm]
    have hmp : b ≠ p := fun h => hpm h.symm
    simp only [Finset.mem_insert, hmp, false_and, false_or, true_and]
    tauto
  · by_cases hbp : b = p
    · subst hbp
      rw [setMatch_played_p st b m hpm]
      simp only [Finset.mem_insert, hbm, false_and, or_false, true_and]
      tauto
    · rw [setMatch_played_other st p m b hbp hbm]
      simp [hbp, hbm]

theorem scheduleMatchup_characterize (st : St) (U sch : List TeamId) (i w : Nat)
    (osh : List TeamId) (oc : Nat) (r : StepOut)
    (h : scheduleMatchup st U sch i w osh oc = some r) :
    ∃ p m, (shuffleOf U osh).getLast? = some p ∧
      r = commitMatch st ((shuffleOf U osh).dropLast) (sch ++ [p]) p m ∧
      ((shuffleOf U osh).dropLast = [m] ∨ m ∈ survivors st p ((shuffleOf U osh).dropLast) w) := by
  cases hS : (shuffleOf U osh).getLast? with
  | none =>
    simp only [scheduleMatchup, hS] at h
    exact Option.noConfusion h
  | some p =>
    obtain ⟨U1, hSdec⟩ : ∃ U1, shuffleOf U osh = U1 ++ [p] :=
      ⟨(shuffleOf U osh).dropLast, (List.dropLast_append_getLast? p hS).symm⟩
    rw [hSdec] at hS ⊢
    simp only [List.getLast?_concat, List.dropLast_concat] at hS ⊢
    simp only [scheduleMatchup, hSdec, List.getLast?_concat, List.dropLast_concat] at h
    rcases U1 with _ | ⟨a, rest⟩
    · dsimp only at h
      by_cases hi : i = 0
      · rw [if_pos hi] at h
        cases hc : chooseFrom (survivors st p [] w) oc with
        | none => rw [hc] at h; exact Option.noConfusion h
        | some m =>
          rw [hc] at h
          exact ⟨p, m, rfl, (Option.some.inj h).symm, Or.inr (chooseFrom_mem hc)⟩
      · rw [if_neg hi] at h
        cases hf : (survivors st p [] w).find? (fun c => isPreferredCode st p (sch ++ [p]) c) with
        | some m =>
          rw [hf] at h
          exact ⟨p, m, rfl, (Option.some.inj h).symm,
            Or.inr (List.mem_of_find?_eq_some hf)⟩
        | none =>
          rw [hf] at h
          cases hc : chooseFrom (survivors st p [] w) oc with
          | none => rw [hc] at h; exact Option.noConfusion h
          | some m =>
            rw [hc] at h
            exact ⟨p, m, rfl, (Option.some.inj h).symm, Or.inr (chooseFrom_mem hc)⟩
    · rcases rest with _ | ⟨b, l⟩
      · dsimp only at h
        exact ⟨p, a, rfl, (Option.some.inj h).symm, Or.inl rfl⟩
      · dsimp only at h
        by_cases hi : i = 0
        · rw [if_pos hi] at h
          cases hc : chooseFrom (survivors st p (a :: b :: l) w) oc with
          | none => rw [hc] at h; exact Option.noConfusion h
          | some m =>
            rw [hc] at h
            exact ⟨p, m, rfl, (Option.some.inj h).symm, Or.inr (chooseFrom_mem hc)⟩
        · rw [if_neg hi] at h
          cases hf : (survivors st p (a :: b :: l) w).find?
              (fun c => isPreferredCode st p (sch ++ [p]) c) with
          | some m =>
            rw [hf] at h
            exact ⟨p, m, rfl, (Option.some.inj h).symm,
              Or.inr (List.mem_of_find?_eq_some hf)⟩
          | none =>
            rw [hf] at h
            cases hc : chooseFrom (survivors st p (a :: b :: l) w) oc with
            | none => rw [hc] at h; exact Option.noConfusion h
            | some m =>
              rw [hc] at h
              exact ⟨p, m, rfl, (Option.some.inj h).symm, Or.inr (chooseFrom_mem hc)⟩

theorem step_facts (st : St) (U sch : List TeamId) (i w : Nat) (osh : List TeamId) (oc : Nat)
    (r : StepOut) (h : scheduleMatchup st U sch i w osh oc = some r)
    (hnd : U.Nodup)
    (hcardw : ∀ t ∈ U, (st.played t).card = w)
    (htwo : TwoLeftOK st U) :
    r.pair.1 ∈ U ∧ r.pair.2 ∈ U ∧ r.pair.1 ≠ r.pair.2 ∧
    r.pair.2 ∉ st.played r.pair.1 ∧
    r.st = setMatchForTeam st r.pair.1 r.pair.2 ∧
    (r.pair.1 ::ₘ r.pair.2 ::ₘ (r.unscheduled : Multiset TeamId)) = (U : Multiset TeamId) ∧
    r.unscheduled.Nodup ∧
    (∀ t ∈ r.unscheduled, t ≠ r.pair.1 ∧ t ≠ r.pair.2 ∧ t ∈ U) ∧
    TwoLeftOK st r.unscheduled := by
  obtain ⟨p, m, hS, hr, hdisj⟩ := scheduleMatchup_characterize st U sch i w osh oc r h
  have hperm : (shuffleOf U osh).Perm U := shuffleOf_perm U osh
  have hSnd : (shuffleOf U osh).Nodup := (hperm.nodup_iff).mpr hnd
  obtain ⟨U1, hdec⟩ : ∃ U1, shuffleOf U osh = U1 ++ [p] :=
    ⟨(shuffleOf U osh).dropLast, (List.dropLast_append_getLast? p hS).symm⟩
  have hdrop : (shuffleOf U osh).dropLast = U1 := by rw [hdec, List.dropLast_concat]
  rw [hdrop] at hr hdisj
  have hpU : p ∈ U := hperm.mem_iff.mp (by rw [hdec]; simp)
  have hU1sub : ∀ x ∈ U1, x ∈ U := fun x hx =>
    hperm.mem_iff.mp (by rw [hdec]; exact List.mem_append_left _ hx)
  have hndApp := hdec ▸ hSnd
  have hpnotU1 : p ∉ U1 := fun hp =>
    (List.nodup_append.mp hndApp).2.2 hp (List.mem_singleton_self p)
  have hU1nd : U1.Nodup := (List.nodup_append.mp hndApp).1
  have hmU1 : m ∈ U1 := by
    rcases hdisj with h1 | h2
    · rw [h1]; exact List.mem_singleton_self m
    · exact potential_mem m (survivors_subset_potential m h2)
  have hmU : m ∈ U := hU1sub m hmU1
  have hpm : p ≠ m := fun he => hpnotU1 (he ▸ hmU1)
  have hmnp : m ∉ st.played p := by
    rcases hdisj with h1 | h2
    · have hlen : U.length = 2 := by
        rw [← hperm.length_eq, hdec, h1]
        rfl
      exact htwo hlen p hpU m hmU hpm
    · exact potential_not_played m (survivors_subset_potential m h2)
  subst hr
  dsimp only [commitMatch]
  have hmemerase : ∀ t, t ∈ U1.erase m → t ≠ p ∧ t ≠ m ∧ t ∈ U := by
    intro t ht
    obtain ⟨htm, htU1⟩ := (List.Nodup.mem_erase_iff hU1nd).mp ht
    exact ⟨fun he => hpnotU1 (he ▸ htU1), htm, hU1sub t htU1⟩
  refine ⟨hpU, hmU, hpm, hmnp, rfl, ?_, List.Nodup.erase m hU1nd, hmemerase, ?_⟩
  · have hco : ((U1.erase m : List TeamId) : Multiset TeamId) =
        ((U1 : List TeamId) : Multiset TeamId).erase m := (Multiset.coe_erase U1 m).symm
    have hcons : m ::ₘ ((U1 : List TeamId) : Multiset TeamId).erase m = (U1 : Multiset TeamId) :=
      Multiset.cons_erase (Multiset.mem_coe.mpr hmU1)
    have hUS : ((shuffleOf U osh : List TeamId) : Multiset TeamId) = (U : Multiset TeamId) :=
      Multiset.coe_eq_coe.mpr hperm
    rw [hco, hcons, ← hUS, hdec]
    have : ((U1 ++ [p] : List TeamId) : Multiset TeamId) =
        (U1 : Multiset TeamId) + ([p] : List TeamId) := by
      exact_mod_cast (Multiset.coe_add U1 [p]).symm
    rw [this]
    have hsingle : (([p] : List TeamId) : Multiset TeamId) = ({p} : Multiset TeamId) := rfl
    rw [hsingle, add_comm, Multiset.singleton_add]
  · intro hlen2 a ha b hb hab
    rcases hdisj with h1 | h2
    · rw [h1] at ha
      simp at ha
    · have haU1 : a ∈ U1 := List.mem_of_mem_erase ha
      have hbU1 : b ∈ U1 := List.mem_of_mem_erase hb
      by_cases hw0 : w = 0
      · have hc := hcardw a (hU1sub a haU1)
        rw [hw0] at hc
        rw [Finset.card_eq_zero.mp hc]
        exact Finset.not_mem_empty b
      · have hlenU1 : U1.length = 3 := by
          have h3 := List.length_erase_of_mem hmU1
          have h4 : 0 < U1.length := List.length_pos_of_mem hmU1
          omega
        have hguard : viabilityCheckUsed U1.length w = true := by
          unfold viabilityCheckUsed already_played_or_self_size
          rw [hlenU1]
          simp only [decide_eq_true_eq]
          omega
        have hms : m ∈ (potentialMatches st p U1).filter (fun a => testMatch st a U1.toFinset) := by
          unfold survivors at h2
          rw [hguard] at h2
          simpa using h2
        have htm : testMatch st m U1.toFinset = true := (List.mem_filter.mp hms).2
        rw [testMatch, decide_eq_true_eq] at htm
        have ham : a ≠ m := ((List.Nodup.mem_erase_iff hU1nd).mp ha).1
        have hbm : b ≠ m := ((List.Nodup.mem_erase_iff hU1nd).mp hb).1
        have haf : a ∈ U1.toFinset.erase m :=
          Finset.mem_erase.mpr ⟨ham, List.mem_toFinset.mpr haU1⟩
        have hbf : b ∈ U1.toFinset.erase m :=
          Finset.mem_erase.mpr ⟨hbm, List.mem_toFinset.mpr hbU1⟩
        have hnotsub := htm a haf
        intro hbin
        apply hnotsub
        have hset : U1.toFinset.erase m = {a, b} := by
          symm
          apply Finset.eq_of_subset_of_card_le
          · intro x hx
            rcases Finset.mem_insert.mp hx with rfl | hx2
            · exact haf
            · rw [Finset.mem_singleton] at hx2
              subst hx2
              exact hbf
          · have hce : (U1.toFinset.erase m).card = 2 := by
              rw [Finset.card_erase_of_mem (List.mem_toFinset.mpr hmU1),
                List.toFinset_card_of_nodup hU1nd, hlenU1]
            rw [hce]
            rw [Finset.card_insert_of_not_mem (by simpa using hab), Finset.card_singleton]
        rw [hset]
        intro x hx
        rcases Finset.mem_insert.mp hx with rfl | hx2
        · exact Finset.mem_insert_self x _
        · rw [Finset.mem_singleton] at hx2
          subst hx2
          exact Finset.mem_insert_of_mem hbin

theorem step_winv (st : St) (U sch : List TeamId) (i w : Nat) (osh : List TeamId) (oc : Nat)
    (ps : List (TeamId × TeamId)) (r : StepOut)
    (hinv : WInv st U ps w) (h : scheduleMatchup st U sch i w osh oc = some r) :
    WInv r.st r.unscheduled (ps ++ [r.pair]) w := by
  obtain ⟨hpU, hmU, hpm, hmnp, hrst, hmul, hnd2, hmem, htwo2⟩ :=
    step_facts st U sch i w osh oc r h hinv.nodupU hinv.cardw hinv.two
  refine { sym := ?_, noself := ?_, corr := ?_, dup := ?_, nodupU := hnd2,
           cardw := ?_, two := ?_ }
  · intro a b
    rw [hrst, setMatch_mem_played st _ _ hpm a b, setMatch_mem_played st _ _ hpm b a,
      hinv.sym a b]
    tauto
  · intro a
    rw [hrst, setMatch_mem_played st _ _ hpm a a]
    rintro (hin | ⟨h1, h2⟩ | ⟨h1, h2⟩)
    · exact hinv.noself a hin
    · exact hpm (h1.symm.trans h2)
    · exact hpm (h2.symm.trans h1)
  · intro a b
    rw [hrst, setMatch_mem_played st _ _ hpm b a, hinv.corr a b]
    constructor
    · rintro (⟨x, hx, hpe⟩ | ⟨ha, hb⟩ | ⟨ha, hb⟩)
      · exact ⟨x, List.mem_append_left _ hx, hpe⟩
      · exact ⟨r.pair, List.mem_append_right _ (List.mem_singleton_self _),
          Or.inl ⟨ha.symm, hb.symm⟩⟩
      · exact ⟨r.pair, List.mem_append_right _ (List.mem_singleton_self _),
          Or.inr ⟨hb.symm, ha.symm⟩⟩
    · rintro ⟨x, hx, hpe⟩
      rcases List.mem_append.mp hx with hx1 | hx2
      · exact Or.inl ⟨x, hx1, hpe⟩
      · rw [List.mem_singleton] at hx2
        subst hx2
        rcases hpe with ⟨h1, h2⟩ | ⟨h1, h2⟩
        · exact Or.inr (Or.inl ⟨h1.symm, h2.symm⟩)
        · exact Or.inr (Or.inr ⟨h2.symm, h1.symm⟩)
  · rw [dupFree, List.pairwise_append]
    refine ⟨hinv.dup, List.pairwise_singleton _ _, ?_⟩
    intro x hx y hy
    rw [List.mem_singleton] at hy
    subst hy
    intro hpe
    apply hmnp
    rw [hinv.corr r.pair.1 r.pair.2]
    exact ⟨x, hx, hpe⟩
  · intro t ht
    obtain ⟨htp, htm, htU⟩ := hmem t ht
    rw [hrst, setMatch_played_other st _ _ t htp htm]
    exact hinv.cardw t htU
  · intro hlen a ha b hb hab
    obtain ⟨hap, ham, _⟩ := hmem a ha
    rw [hrst, setMatch_played_other st _ _ a hap ham]
    exact htwo2 hlen a ha b hb hab

theorem teamsOf_mem {δ : List (TeamId × TeamId)} {t : TeamId} :
    t ∈ teamsOf δ ↔ ∃ x ∈ δ, t = x.1 ∨ t = x.2 := by
  induction δ with
  | nil => simp [teamsOf]
  | cons x xs ih =>
    simp only [teamsOf, Multiset.mem_cons, ih, List.mem_cons]
    constructor
    · rintro (rfl | rfl | ⟨y, hy, hc⟩)
      · exact ⟨x, Or.inl rfl, Or.inl rfl⟩
      · exact ⟨x, Or.inl rfl, Or.inr rfl⟩
      · exact ⟨y, Or.inr hy, hc⟩
    · rintro ⟨y, rfl | hy, hc⟩
      · rcases hc with rfl | rfl
        · exact Or.inl rfl
        · exact Or.inr (Or.inl rfl)
      · exact Or.inr (Or.inr ⟨y, hy, hc⟩)

theorem weekGo_facts (w : Nat) :
    ∀ (fuel i : Nat) (st : St) (U sch : List TeamId) (pairs : WeekRec)
      (ps0 : List (TeamId × TeamId)) (o : Ora) (stF : St) (pF : WeekRec) (oF : Ora),
      runWeekGoW scheduleMatchup w fuel i st U sch pairs o = some (stF, pF, oF) →
      WInv st U (ps0 ++ pairs) w →
      U.length = 2 * fuel →
      ∃ δ, pF = pairs ++ δ ∧ WeekDelta st stF U δ ∧ WInv stF [] (ps0 ++ pF) w := by
  intro fuel
  induction fuel with
  | zero =>
    intro i st U sch pairs ps0 o stF pF oF hrun hinv hlen
    simp only [runWeekGoW, Option.some.injEq, Prod.mk.injEq] at hrun
    obtain ⟨rfl, rfl, rfl⟩ := hrun
    have hU : U = [] := List.length_eq_zero.mp (by omega)
    subst hU
    refine ⟨[], by simp, ?_, by simpa using hinv⟩
    refine { cover := rfl, frame := fun t _ => ⟨rfl, rfl⟩, pairs := ?_ }
    intro x hx
    exact absurd hx (List.not_mem_nil x)
  | succ f ih =>
    intro i st U sch pairs ps0 o stF pF oF hrun hinv hlen
    simp only [runWeekGoW] at hrun
    cases hstep : scheduleMatchup st U sch i w (o.headD ([], 0)).1 (o.headD ([], 0)).2 with
    | none =>
      rw [hstep] at hrun
      exact Option.noConfusion hrun
    | some r =>
      rw [hstep] at hrun
      obtain ⟨hpU, hmU, hpm, hmnp, hrst, hmul, hnd2, hmem, htwo2⟩ :=
        step_facts st U sch i w _ _ r hstep hinv.nodupU hinv.cardw hinv.two
      have hwinv2 : WInv r.st r.unscheduled ((ps0 ++ pairs) ++ [r.pair]) w :=
        step_winv st U sch i w _ _ _ r hinv hstep
      rw [List.append_assoc] at hwinv2
      have hlen2 : r.unscheduled.length = 2 * f := by
        have hcard := congrArg Multiset.card hmul
        simp only [Multiset.card_cons, Multiset.coe_card] at hcard
        omega
      obtain ⟨δ2, hpF, hwd2, hwfin⟩ :=
        ih (i + 1) r.st r.unscheduled r.scheduled (pairs ++ [r.pair]) ps0 o.tail
          stF pF oF hrun hwinv2 hlen2
      have hpmn : r.pair.1 ∉ st.played r.pair.2 := fun hin =>
        hmnp ((hinv.sym r.pair.1 r.pair.2).mp hin)
      have hpnot : r.pair.1 ∉ r.unscheduled := fun hmem2 => (hmem _ hmem2).1 rfl
      have hmnot : r.pair.2 ∉ r.unscheduled := fun hmem2 => (hmem _ hmem2).2.1 rfl
      refine ⟨r.pair :: δ2, by rw [hpF]; simp, ?_, hwfin⟩
      refine { cover := ?_, frame := ?_, pairs := ?_ }
      · show r.pair.1 ::ₘ r.pair.2 ::ₘ teamsOf δ2 = (U : Multiset TeamId)
        rw [hwd2.cover]
        exact hmul
      · intro t ht
        have htnot2 : t ∉ r.unscheduled := fun hmem2 => ht (hmem t hmem2).2.2
        have h2 := hwd2.frame t htnot2
        have htp : t ≠ r.pair.1 := fun he => ht (he ▸ hpU)
        have htm : t ≠ r.pair.2 := fun he => ht (he ▸ hmU)
        constructor
        · rw [h2.1, hrst, setMatch_played_other st _ _ t htp htm]
        · rw [h2.2, hrst, setMatch_hist_other st _ _ t htp htm]
      · intro x hx
        rcases List.mem_cons.mp hx with rfl | hx2
        · have hfp := hwd2.frame _ hpnot
          have hfm := hwd2.frame _ hmnot
          refine ⟨hpm, hpU, hmU, hmnp, hpmn, ?_, ?_, ?_, ?_⟩
          · rw [hfp.1, hrst, setMatch_played_p st _ _ hpm]
          · rw [hfm.1, hrst, setMatch_played_m' st _ _ hpm]
          · rw [hfp.2, hrst, setMatch_hist_p st _ _ hpm]
          · rw [hfm.2, hrst, setMatch_hist_m st _ _ hpm]
        · obtain ⟨hx12, hx1U, hx2U, hxnp1, hxnp2, hxpl1, hxpl2, hxh1, hxh2⟩ := hwd2.pairs x hx2
          obtain ⟨h1p, h1m, h1U⟩ := hmem x.1 hx1U
          obtain ⟨h2p, h2m, h2U⟩ := hmem x.2 hx2U
          have he1 : r.st.played x.1 = st.played x.1 := by
            rw [hrst, setMatch_played_other st _ _ x.1 h1p h1m]
          have he2 : r.st.played x.2 = st.played x.2 := by
            rw [hrst, setMatch_played_other st _ _ x.2 h2p h2m]
          have hh1 : r.st.hist x.1 = st.hist x.1 := by
            rw [hrst, setMatch_hist_other st _ _ x.1 h1p h1m]
          have hh2 : r.st.hist x.2 = st.hist x.2 := by
            rw [hrst, setMatch_hist_other st _ _ x.2 h2p h2m]
          exact ⟨hx12, h1U, h2U, he1 ▸ hxnp1, he2 ▸ hxnp2,
            he1 ▸ hxpl1, he2 ▸ hxpl2, hh1 ▸ hxh1, hh2 ▸ hxh2⟩

theorem weekdelta_team (st stF : St) (U : List TeamId) (δ : List (TeamId × TeamId))
    (hwd : WeekDelta st stF U δ) (t : TeamId) (ht : t ∈ U) :
    ∃ u, u ∈ U ∧ u ≠ t ∧ u ∉ st.played t ∧ t ∉ st.played u ∧
      stF.played t = insert u (st.played t) ∧ stF.played u = insert t (st.played u) ∧
      stF.hist t = st.hist t ++ [u] ∧ stF.hist u = st.hist u ++ [t] := by
  have htm : t ∈ teamsOf δ := by
    rw [hwd.cover]
    exact Multiset.mem_coe.mpr ht
  obtain ⟨x, hx, hc⟩ := teamsOf_mem.mp htm
  obtain ⟨hx12, hx1U, hx2U, hxnp1, hxnp2, hxpl1, hxpl2, hxh1, hxh2⟩ := hwd.pairs x hx
  rcases hc with rfl | rfl
  · exact ⟨x.2, hx2U, fun he => hx12 he.symm, hxnp1, hxnp2, hxpl1, hxpl2, hxh1, hxh2⟩
  · exact ⟨x.1, hx1U, hx12, hxnp2, hxnp1, hxpl2, hxpl1, hxh2, hxh1⟩

theorem histsym_week (st stF : St) (teams : List TeamId) (δ : List (TeamId × TeamId))
    (L : Nat) (hwd : WeekDelta st stF teams δ) (hh : HistSym st teams L) :
    HistSym stF teams (L + 1) := by
  obtain ⟨hlen, hsym⟩ := hh
  constructor
  · intro t ht
    obtain ⟨u, -, -, -, -, -, -, he, -⟩ := weekdelta_team st stF teams δ hwd t ht
    rw [he, List.length_append, hlen t ht]
    rfl
  · intro a ha k b hk
    obtain ⟨u, hu, -, -, -, -, -, hea, heu⟩ := weekdelta_team st stF teams δ hwd a ha
    rw [hea] at hk
    rcases Nat.lt_trichotomy k L with hlt | rfl | hgt
    · rw [List.getElem?_append_left (by rw [hlen a ha]; exact hlt)] at hk
      obtain ⟨hbteams, hba⟩ := hsym a ha k b hk
      obtain ⟨v, -, -, -, -, -, -, heb, -⟩ := weekdelta_team st stF teams δ hwd b hbteams
      refine ⟨hbteams, ?_⟩
      rw [heb, List.getElem?_append_left (by rw [hlen b hbteams]; exact hlt)]
      exact hba
    · rw [List.getElem?_append_right (le_of_eq (hlen a ha)), hlen a ha, Nat.sub_self] at hk
      simp only [List.getElem?_cons_zero, Option.some.injEq] at hk
      subst hk
      refine ⟨hu, ?_⟩
      rw [heu, List.getElem?_append_right (le_of_eq (hlen u hu)), hlen u hu, Nat.sub_self]
      rfl
    · exfalso
      have hnone : (st.hist a ++ [u])[k]? = none := by
        apply List.getElem?_eq_none
        rw [List.length_append, hlen a ha]
        simpa using hgt
      rw [hnone] at hk
      exact Option.noConfusion hk

theorem winv_of_cyc (st : St) (teams : List TeamId) (ps : List (TeamId × TeamId))
    (w bound : Nat) (hnd : teams.Nodup) (hc : CycInv st teams ps w)
    (hw : w + bound ≤ teams.length - 1) (hb : 1 ≤ bound) : WInv st teams ps w :=
  { sym := hc.sym, noself := hc.noself, corr := hc.corr, dup := hc.dup,
    nodupU := hnd, cardw := hc.cardw,
    two := by
      intro hlen a ha b hb2 hab
      have hw0 : w = 0 := by omega
      have hcard := hc.cardw a ha
      rw [hw0] at hcard
      rw [Finset.card_eq_zero.mp hcard]
      exact Finset.not_mem_empty b }

theorem cyc_after_week (st stF : St) (teams : List TeamId)
    (ps δ : List (TeamId × TeamId)) (w : Nat)
    (hcyc : CycInv st teams ps w) (hwd : WeekDelta st stF teams δ)
    (hfin : WInv stF [] (ps ++ δ) w) :
    CycInv stF teams (ps ++ δ) (w + 1) :=
  { sym := hfin.sym, noself := hfin.noself, corr := hfin.corr, dup := hfin.dup,
    cardw := by
      intro t ht
      obtain ⟨u, -, -, hunp, -, hpl, -, -, -⟩ := weekdelta_team st stF teams δ hwd t ht
      rw [hpl, Finset.card_insert_of_not_mem hunp, hcyc.cardw t ht] }

theorem schedGo_facts (teams : List TeamId) (hnd : teams.Nodup)
    (hev : teams.length % 2 = 0) :
    ∀ (rem w : Nat) (st : St) (acc : Sched) (ps0 : List (TeamId × TeamId)) (o : Ora)
      (stF : St) (accF : Sched) (oF : Ora),
      runSchedulerGoW scheduleMatchup teams rem w st acc o = some (stF, accF, oF) →
      CycInv st teams ps0 w →
      w + rem ≤ teams.length - 1 →
      ∃ wss, accF = acc ++ wss ∧
        CycInv stF teams (ps0 ++ wss.flatten) (w + rem) ∧
        (∀ L, HistSym st teams L → HistSym stF teams (L + rem)) ∧
        (∀ t, t ∉ teams → stF.played t = st.played t ∧ stF.hist t = st.hist t) := by
  intro rem
  induction rem with
  | zero =>
    intro w st acc ps0 o stF accF oF hrun hcyc hw
    simp only [runSchedulerGoW, Option.some.injEq, Prod.mk.injEq] at hrun
    obtain ⟨rfl, rfl, rfl⟩ := hrun
    exact ⟨[], by simp, by simpa using hcyc, fun L h => by simpa using h,
      fun t _ => ⟨rfl, rfl⟩⟩
  | succ rr ih =>
    intro w st acc ps0 o stF accF oF hrun hcyc hw
    simp only [runSchedulerGoW, runWeekW] at hrun
    cases hwk : runWeekGoW scheduleMatchup w (teams.length / 2) 0 st teams [] [] o with
    | none =>
      rw [hwk] at hrun
      exact Option.noConfusion hrun
    | some res =>
      rw [hwk] at hrun
      have hwinv : WInv st teams ps0 w :=
        winv_of_cyc st teams ps0 w (rr + 1) hnd hcyc hw (by omega)
      have hlen : teams.length = 2 * (teams.length / 2) := by omega
      obtain ⟨δ, hpF, hwd, hwfin⟩ :=
        weekGo_facts w (teams.length / 2) 0 st teams [] [] ps0 o res.1 res.2.1 res.2.2
          hwk (by simpa using hwinv) hlen
      have hwfin2 : WInv res.1 [] (ps0 ++ δ) w := by
        rw [hpF] at hwfin
        simpa using hwfin
      have hcyc2 : CycInv res.1 teams (ps0 ++ δ) (w + 1) :=
        cyc_after_week st res.1 teams ps0 δ w hcyc hwd hwfin2
      obtain ⟨wss2, haccF, hcycF, hhist, hframe⟩ :=
        ih (w + 1) res.1 (acc ++ [res.2.1]) (ps0 ++ δ) res.2.2 stF accF oF hrun hcyc2
          (by omega)
      refine ⟨res.2.1 :: wss2, by rw [haccF]; simp, ?_, ?_, ?_⟩
      · have hflat : (res.2.1 :: wss2).flatten = δ ++ wss2.flatten := by
          rw [hpF]
          simp
        rw [hflat, ← List.append_assoc]
        have harith : w + (rr + 1) = w + 1 + rr := by omega
        rw [harith]
        exact hcycF
      · intro L hL
        have h1 := histsym_week st res.1 teams δ L hwd hL
        have h2 := hhist (L + 1) h1
        have harith : L + (rr + 1) = L + 1 + rr := by omega
        rw [harith]
        exact h2
      · intro t ht
        obtain ⟨hf1, hf2⟩ := hframe t ht
        obtain ⟨hg1, hg2⟩ := hwd.frame t ht
        exact ⟨hf1.trans hg1, hf2.trans hg2⟩

theorem cyc_reset (st : St) (teams : List TeamId) (hreset : ∀ t, st.played t = ∅) :
    CycInv st teams [] 0 :=
  { sym := by intro a b; simp [hreset]
    noself := by intro a; simp [hreset]
    corr := by intro a b; simp [hreset]
    dup := List.Pairwise.nil
    cardw := by intro t _; simp [hreset] }

/-- C1: a successful cycle run — `runScheduler` called on a pool whose played
sets have just been cleared, for at most `N-1` weeks, exactly as `main`
drives each pass — commits every unordered pair of participants at most
once across all the weeks it produces.  The flattened pair list contains
every committed matchup, including the pairs committed by the
single-remaining-team shortcut branch of line 331, so none of them repeats
an earlier matchup of the same cycle. -/
theorem C1_cycle_uniqueness (st0 : St) (teams : List TeamId) (weeks : Nat) (o : Ora)
    (pss : Sched)
    (hreset : ∀ t, st0.played t = ∅) (hnd : teams.Nodup)
    (hev : teams.length % 2 = 0) (hwk : weeks ≤ teams.length - 1)
    (hrun : (runScheduler st0 teams weeks o).map (fun r => r.2.1) = some pss) :
    dupFree pss.flatten := by
  rw [Option.map_eq_some'] at hrun
  obtain ⟨res, hres, hpss⟩ := hrun
  unfold runScheduler at hres
  obtain ⟨wss, hacc, hcycF, -, -⟩ :=
    schedGo_facts teams hnd hev weeks 0 st0 [] [] o res.1 res.2.1 res.2.2 hres
      (cyc_reset st0 teams hreset) (by omega)
  have hw : pss = wss := by
    rw [← hpss, hacc]
    simp
  rw [hw]
  have hdup := hcycF.dup
  simpa using hdup

theorem C1_cycle_uniqueness_witness :
    dupFree ([[(3, 0), (2, 1)], [(3, 1), (2, 0)], [(3, 2), (1, 0)]] : Sched).flatten :=
  C1_cycle_uniqueness freshSt [0, 1, 2, 3] 3 []
    [[(3, 0), (2, 1)], [(3, 1), (2, 0)], [(3, 2), (1, 0)]]
    (fun _ => rfl) (by decide) (by decide) (by decide) (by rfl)

theorem step_eq_checked (st : St) (U sch : List TeamId) (i w : Nat) (osh : List TeamId)
    (oc : Nat) (ps : List (TeamId × TeamId)) (hinv : WInv st U ps w) :
    scheduleMatchup st U sch i w osh oc = scheduleMatchupChecked st U sch i w osh oc := by
  cases hS : (shuffleOf U osh).getLast? with
  | none => simp only [scheduleMatchup, scheduleMatchupChecked, hS]
  | some p =>
    obtain ⟨U1, hdec⟩ : ∃ U1, shuffleOf U osh = U1 ++ [p] :=
      ⟨_, (List.dropLast_append_getLast? p hS).symm⟩
    simp only [scheduleMatchup, scheduleMatchupChecked, hdec, List.getLast?_concat,
      List.dropLast_concat]
    rcases U1 with _ | ⟨a, rest⟩
    · rfl
    · rcases rest with _ | ⟨b, l⟩
      · have hperm : ([a] ++ [p]).Perm U := hdec ▸ shuffleOf_perm U osh
        have hlen : U.length = 2 := by rw [← hperm.length_eq]; rfl
        have hpU : p ∈ U := hperm.mem_iff.mp (by simp)
        have haU : a ∈ U := hperm.mem_iff.mp (by simp)
        have hap : a ≠ p := by
          have hndl := (hperm.nodup_iff).mpr hinv.nodupU
          simpa using hndl
        have hanp : a ∉ st.played p := hinv.two hlen p hpU a haU (fun he => hap he.symm)
        dsimp only
        rw [if_neg hanp]
      · rfl

theorem survivors_eq_AC (st : St) (p : TeamId) (U1 : List TeamId) (w : Nat)
    (hnd1 : U1.Nodup) (hcard : ∀ t ∈ U1, (st.played t).card = w) :
    survivors st p U1 w = survivorsAC st p U1 := by
  unfold survivors survivorsAC
  by_cases hg : viabilityCheckUsed U1.length w = true
  · rw [if_pos hg]
  · rw [if_neg hg]
    symm
    rw [List.filter_eq_self]
    intro c hc
    have hcU1 : c ∈ U1 := potential_mem c hc
    unfold testMatch
    rw [decide_eq_true_eq]
    intro t ht hsub
    obtain ⟨htc, htf⟩ := Finset.mem_erase.mp ht
    have htU1 : t ∈ U1 := List.mem_toFinset.mp htf
    have hcards := Finset.card_le_card hsub
    have h1 : (U1.toFinset.erase c).card = U1.length - 1 := by
      rw [Finset.card_erase_of_mem (List.mem_toFinset.mpr hcU1),
        List.toFinset_card_of_nodup hnd1]
    have h2 : (insert t (st.played t)).card ≤ w + 1 := by
      refine le_trans (Finset.card_insert_le t _) ?_
      have := hcard t htU1
      omega
    have hg2 : ¬ (U1.length - 1 ≤ w + 1) := by
      simpa [viabilityCheckUsed, already_played_or_self_size] using hg
    omega

theorem step_eq_AC (st : St) (U sch : List TeamId) (i w : Nat) (osh : List TeamId)
    (oc : Nat) (ps : List (TeamId × TeamId)) (hinv : WInv st U ps w) :
    scheduleMatchup st U sch i w osh oc = scheduleMatchupAC st U sch i w osh oc := by
  cases hS : (shuffleOf U osh).getLast? with
  | none => simp only [scheduleMatchup, scheduleMatchupAC, hS]
  | some p =>
    obtain ⟨U1, hdec⟩ : ∃ U1, shuffleOf U osh = U1 ++ [p] :=
      ⟨_, (List.dropLast_append_getLast? p hS).symm⟩
    have hperm : (U1 ++ [p]).Perm U := hdec ▸ shuffleOf_perm U osh
    have hndS : (U1 ++ [p]).Nodup := (hperm.nodup_iff).mpr hinv.nodupU
    have hU1nd : U1.Nodup := (List.nodup_append.mp hndS).1
    have hU1card : ∀ t ∈ U1, (st.played t).card = w := fun t ht =>
      hinv.cardw t (hperm.mem_iff.mp (List.mem_append_left _ ht))
    have hsv := survivors_eq_AC st p U1 w hU1nd hU1card
    simp only [scheduleMatchup, scheduleMatchupAC, hdec, List.getLast?_concat,
      List.dropLast_concat, hsv]

theorem weekGo_eq_gen (g : StepFun) (w : Nat)
    (hsg : ∀ (st : St) (U sch : List TeamId) (i : Nat) (osh : List TeamId) (oc : Nat)
      (ps : List (TeamId × TeamId)), WInv st U ps w →
      scheduleMatchup st U sch i w osh oc = g st U sch i w osh oc) :
    ∀ (fuel i : Nat) (st : St) (U sch : List TeamId) (pairs : WeekRec) (o : Ora)
      (ps : List (TeamId × TeamId)), WInv st U ps w →
      runWeekGoW scheduleMatchup w fuel i st U sch pairs o =
        runWeekGoW g w fuel i st U sch pairs o := by
  intro fuel
  induction fuel with
  | zero => intros; rfl
  | succ f ih =>
    intro i st U sch pairs o ps hinv
    simp only [runWeekGoW]
    rw [← hsg st U sch i (o.headD ([], 0)).1 (o.headD ([], 0)).2 ps hinv]
    cases hstep : scheduleMatchup st U sch i w (o.headD ([], 0)).1 (o.headD ([], 0)).2 with
    | none => rfl
    | some r =>
      exact ih (i + 1) r.st r.unscheduled r.scheduled (pairs ++ [r.pair]) o.tail
        (ps ++ [r.pair]) (step_winv st U sch i w _ _ ps r hinv hstep)

theorem schedGo_eq_gen (g : StepFun) (teams : List TeamId) (hnd : teams.Nodup)
    (hev : teams.length % 2 = 0)
    (hsg : ∀ (w : Nat) (st : St) (U sch : List TeamId) (i : Nat) (osh : List TeamId)
      (oc : Nat) (ps : List (TeamId × TeamId)), WInv st U ps w →
      scheduleMatchup st U sch i w osh oc = g st U sch i w osh oc) :
    ∀ (rem w : Nat) (st : St) (acc : Sched) (o : Ora) (ps0 : List (TeamId × TeamId)),
      CycInv st teams ps0 w → w + rem ≤ teams.length - 1 →
      runSchedulerGoW scheduleMatchup teams rem w st acc o =
        runSchedulerGoW g teams rem w st acc o := by
  intro rem
  induction rem with
  | zero => intros; rfl
  | succ rr ih =>
    intro w st acc o ps0 hcyc hw
    have hwinv : WInv st teams ps0 w :=
      winv_of_cyc st teams ps0 w (rr + 1) hnd hcyc hw (by omega)
    simp only [runSchedulerGoW, runWeekW]
    rw [← weekGo_eq_gen g w (hsg w) (teams.length / 2) 0 st teams [] [] o ps0 hwinv]
    cases hwk : runWeekGoW scheduleMatchup w (teams.length / 2) 0 st teams [] [] o with
    | none => rfl
    | some res =>
      have hlen : teams.length = 2 * (teams.length / 2) := by omega
      obtain ⟨δ, hpF, hwd, hwfin⟩ :=
        weekGo_facts w (teams.length / 2) 0 st teams [] [] ps0 o res.1 res.2.1 res.2.2
          hwk (by simpa using hwinv) hlen
      have hwfin2 : WInv res.1 [] (ps0 ++ δ) w := by
        rw [hpF] at hwfin
        simpa using hwfin
      exact ih (w + 1) res.1 (acc ++ [res.2.1]) res.2.2 (ps0 ++ δ)
        (cyc_after_week st res.1 teams ps0 δ w hcyc hwd hwfin2) (by omega)

/-- C10: in every reachable state of a week's construction within a proper
cycle run, the single remaining unscheduled team taken by the shortcut
branch of line 331 is a legal (not yet played) opponent of the picker: the
variant of the scheduler that refuses an illegal forced pairing behaves
identically to the real one on every random stream, so the pairing the
shortcut commits without consulting the picker's played set is never a
repeat matchup within the current cycle. -/
theorem C10_shortcut_never_repeats (st0 : St) (teams : List TeamId) (weeks : Nat) (o : Ora)
    (hreset : ∀ t, st0.played t = ∅) (hnd : teams.Nodup)
    (hev : teams.length % 2 = 0) (hwk : weeks ≤ teams.length - 1) :
    runScheduler st0 teams weeks o = runSchedulerChecked st0 teams weeks o := by
  unfold runScheduler runSchedulerChecked
  exact schedGo_eq_gen scheduleMatchupChecked teams hnd hev
    (fun w st U sch i osh oc ps hinv => step_eq_checked st U sch i w osh oc ps hinv)
    weeks 0 st0 [] o [] (cyc_reset st0 teams hreset) (by omega)

theorem C10_shortcut_never_repeats_witness :
    runScheduler freshSt [0, 1, 2, 3] 3 [] = runSchedulerChecked freshSt [0, 1, 2, 3] 3 [] :=
  C10_shortcut_never_repeats freshSt [0, 1, 2, 3] 3 [] (fun _ => rfl) (by decide)
    (by decide) (by decide)

/-- C4: skipping the viability check above the size threshold is not a
correctness relaxation: within a proper cycle run every unscheduled team
not yet paired in week `w` still has a played set of exactly `w` opponents
(the `cardw` invariant maintained by `schedGo_facts`), so when the guard of
line 338 is false the `testMatch` subset condition cannot hold
(`survivors_eq_AC`), every candidate passes, and the scheduler that filters
unconditionally computes exactly the same result on every random stream. -/
theorem C4_guard_skip_harmless (st0 : St) (teams : List TeamId) (weeks : Nat) (o : Ora)
    (hreset : ∀ t, st0.played t = ∅) (hnd : teams.Nodup)
    (hev : teams.length % 2 = 0) (hwk : weeks ≤ teams.length - 1) :
    runScheduler st0 teams weeks o = runSchedulerAC st0 teams weeks o := by
  unfold runScheduler runSchedulerAC
  exact schedGo_eq_gen scheduleMatchupAC teams hnd hev
    (fun w st U sch i osh oc ps hinv => step_eq_AC st U sch i w osh oc ps hinv)
    weeks 0 st0 [] o [] (cyc_reset st0 teams hreset) (by omega)

theorem C4_guard_skip_harmless_witness :
    runScheduler freshSt [0, 1, 2, 3, 4, 5] 5 [] = runSchedulerAC freshSt [0, 1, 2, 3, 4, 5] 5 [] :=
  C4_guard_skip_harmless freshSt [0, 1, 2, 3, 4, 5] 5 [] (fun _ => rfl) (by decide)
    (by decide) (by decide)

theorem attemptGo_hist (teams : List TeamId) (hnd : teams.Nodup)
    (hev : teams.length % 2 = 0) (weeks nuq : Nat)
    (hnuq : nuq ≤ teams.length - 1) (hq : 1 ≤ nuq) :
    ∀ (rem : Nat) (st : St) (acc : Sched) (o : Ora) (stF : St) (accF : Sched) (oF : Ora)
      (L : Nat),
      attemptGo teams weeks nuq rem st acc o = some (stF, accF, oF) →
      HistSym st teams L →
      (∀ t, t ∉ teams → stF.hist t = st.hist t) ∧ ∃ M, HistSym stF teams M := by
  intro rem
  induction rem with
  | zero =>
    intro st acc o stF accF oF L hrun hh
    simp only [attemptGo, Option.some.injEq, Prod.mk.injEq] at hrun
    obtain ⟨rfl, rfl, rfl⟩ := hrun
    exact ⟨fun t _ => rfl, L, hh⟩
  | succ rr ih =>
    intro st acc o stF accF oF L hrun hh
    simp only [attemptGo] at hrun
    cases hsched : runScheduler (resetPlayed st) teams
        (if 0 < rr then nuq else if weeks % nuq = 0 then nuq else weeks % nuq) o with
    | none =>
      rw [hsched] at hrun
      exact Option.noConfusion hrun
    | some res =>
      rw [hsched] at hrun
      have hlen : (if 0 < rr then nuq else if weeks % nuq = 0 then nuq else weeks % nuq) ≤
          teams.length - 1 := by
        split
        · exact hnuq
        · split
          · exact hnuq
          · exact le_trans (le_of_lt (Nat.mod_lt weeks hq)) hnuq
      unfold runScheduler at hsched
      obtain ⟨wss, -, -, hhist, hframe⟩ :=
        schedGo_facts teams hnd hev _ 0 (resetPlayed st) [] [] o res.1 res.2.1 res.2.2
          hsched (cyc_reset _ teams (fun _ => rfl)) (by omega)
      have hh2 : HistSym res.1 teams
          (L + (if 0 < rr then nuq else if weeks % nuq = 0 then nuq else weeks % nuq)) :=
        hhist L hh
      obtain ⟨hfr2, M, hM⟩ := ih res.1 (acc ++ res.2.1) res.2.2 stF accF oF _ hrun hh2
      refine ⟨?_, M, hM⟩
      intro t ht
      rw [hfr2 t ht]
      exact (hframe t ht).2

theorem attempt_hist_sym (n weeks : Nat) (o : Ora) (res : St × Sched × Ora)
    (h2 : 2 ≤ n) (hev : n % 2 = 0) (hres : attempt n weeks o = some res) :
    ∀ (a : TeamId) (k : Nat) (b : TeamId), (res.1.hist a)[k]? = some b →
      b ∈ List.range n ∧ (res.1.hist b)[k]? = some a := by
  have hlen : (List.range n).length = n := List.length_range n
  unfold attempt at hres
  have hfresh : HistSym freshSt (List.range n) 0 := by
    constructor
    · intro t _
      rfl
    · intro a _ k b hk
      exact absurd hk (by simp [freshSt])
  obtain ⟨hframe, M, hM⟩ :=
    attemptGo_hist (List.range n) (List.nodup_range n) (by rw [hlen]; exact hev)
      weeks (n - 1) (by rw [hlen]) (by omega)
      (numPasses weeks (n - 1)) freshSt [] o res.1 res.2.1 res.2.2 0 hres hfresh
  intro a k b hk
  by_cases ha : a ∈ List.range n
  · exact hM.2 a ha k b hk
  · rw [hframe a ha] at hk
    exact absurd hk (by simp [freshSt])

/-- C8: for every successful attempt, the per-team histories are pointwise
symmetric: whenever the week-`k` entry of team `a`'s history is `b`, the
week-`k` entry of `b`'s history is `a`.  `hl` is the list of all `n`
histories in team order, extracted from the attempt's final state; each
week's two entries are appended to both partners inside the single
`setMatchForTeam` commitment of their matchup. -/
theorem C8_history_symmetry (n weeks : Nat) (o : Ora) (hl : List (List TeamId))
    (h2 : 2 ≤ n) (hev : n % 2 = 0)
    (hrun : (attempt n weeks o).map
      (fun r => (List.range n).map (fun t => r.1.hist t)) = some hl) :
    ∀ (a k : Nat) (b : TeamId), a < n →
      (hl.getD a [])[k]? = some b →
      b < n ∧ (hl.getD b [])[k]? = some a := by
  rw [Option.map_eq_some'] at hrun
  obtain ⟨res, hres, hhl⟩ := hrun
  subst hhl
  have hget : ∀ x, x < n →
      (((List.range n).map (fun t => res.1.hist t)).getD x []) = res.1.hist x := by
    intro x hx
    rw [List.getD_eq_getElem?_getD, List.getElem?_map, List.getElem?_range hx]
    rfl
  intro a k b ha hk
  rw [hget a ha] at hk
  obtain ⟨hbmem, hba⟩ := attempt_hist_sym n weeks o res h2 hev hres a k b hk
  have hb : b < n := List.mem_range.mp hbmem
  refine ⟨hb, ?_⟩
  rw [hget b hb]
  exact hba

theorem C8_history_symmetry_witness :
    2 < 4 ∧ (([[ (3 : TeamId), 2, 1], [2, 3, 0], [1, 0, 3], [0, 1, 2]] :
      List (List TeamId)).getD 2 [])[1]? = some 0 ∧
    (0 : TeamId) < 4 ∧ (([[ (3 : TeamId), 2, 1], [2, 3, 0], [1, 0, 3], [0, 1, 2]] :
      List (List TeamId)).getD 0 [])[1]? = some 2 :=
  ⟨by decide, by decide,
    C8_history_symmetry 4 3 [] [[3, 2, 1], [2, 3, 0], [1, 0, 3], [0, 1, 2]]
      (by decide) (by decide) (by rfl) 2 1 0 (by decide) (by decide)⟩

end Scheduler
